import Mathlib

/-!
Shallow embedding of the ingestion-framework pipeline core
(src/pipeline/pipeline.py, src/pipeline/log.py, src/contexts/pipeline.py).

The dependency graph of Pipeline is a Python defaultdict(list) mapping a step
name to the list of its successors; the in-degree map is a defaultdict(int).
We model them as association lists looked up by first match; dictionary
access that inserts a missing key with the default value is modeled
explicitly (touch, depsDec).
-/

namespace Ingest

/-- Adjacency structure: step name to successor list, insertion ordered
(Python dict semantics, unique keys in every reachable state). -/
abbrev Graph := List (String × List String)

/-- Successor list of a node; a missing key reads as the empty list, which is
what a defaultdict(list) read returns. -/
def adj : Graph → String → List String
  | [], _ => []
  | (k, vs) :: rest, n => if k = n then vs else adj rest n

/-- Keys of the adjacency dictionary. -/
def keys (g : Graph) : List String := g.map Prod.fst

/-- Key membership as a Bool. -/
def hasKey : Graph → String → Bool
  | [], _ => false
  | (k, _) :: rest, n => if k = n then true else hasKey rest n

/-- Reading a missing key on a defaultdict(list) inserts it with an empty
list; this models the mutation performed by a bare access such as
the statement at pipeline.py line 158. -/
def touch (g : Graph) (n : String) : Graph :=
  if hasKey g n then g else g ++ [(n, [])]

/-- Appends s to the successor list of d (Python list.append on the entry). -/
def appendEdge : Graph → String → String → Graph
  | [], _, _ => []
  | (k, vs) :: rest, d, s =>
    if k = d then (k, vs ++ [s]) :: rest else (k, vs) :: appendEdge rest d s

/-- Removes the first occurrence of s from the successor list of d
(Python list.remove on the entry). -/
def removeEdge : Graph → String → String → Graph
  | [], _, _ => []
  | (k, vs) :: rest, d, s =>
    if k = d then (k, vs.erase s) :: rest else (k, vs) :: removeEdge rest d s

/-- Directed edge relation of the committed graph. -/
def Edge (g : Graph) (a b : String) : Prop := b ∈ adj g a

/-- A directed cycle exists: some node reaches itself along at least one edge. -/
def hasCycle (g : Graph) : Prop := ∃ n, Relation.TransGen (Edge g) n n

/-- Every name occurring in the graph, as key or as edge target. -/
def allNames (g : Graph) : List String := keys g ++ (g.map Prod.snd).flatten

/-!
Cycle detection (Pipeline.detect_cycle, pipeline.py lines 178-210): depth
first search over all keys with a shared visited set and a per-start active
recursion set (the stack).  The Python recursion terminates because visited
only grows; we make that explicit with a fuel argument charged once per node
push, and prove below that the chosen fuel is never exhausted.  Reading
self.graph on a missing neighbor inserts an empty successor list into the
defaultdict, which never changes the value of any adjacency read, so the
traversal is modeled over an unchanged graph.
-/

/-- The neighbor loop inside dfs, parameterized by the recursive dfs call it
performs on unvisited neighbors: recurse on unvisited neighbors, report a
cycle when a neighbor is on the active stack, otherwise continue; when the
list is exhausted the node is popped (the stack is a per-call argument, so
the pop is implicit in returning to the caller). -/
def dfsListGo
    (rec : String → List String → List String → Option (Bool × List String)) :
    List String → List String → List String → Option (Bool × List String)
  | [], visited, _ => some (false, visited)
  | n :: rest, visited, stack =>
    if n ∉ visited then
      match rec n visited stack with
      | none => none
      | some (true, v) => some (true, v)
      | some (false, v) => dfsListGo rec rest v stack
    else if n ∈ stack then some (true, visited)
    else dfsListGo rec rest visited stack

/-- One dfs call of detect_cycle: push node on visited and stack, then walk
its successor list.  Fuel is charged once per push; fuel 0 aborts with none,
a branch proven unreachable below for the fuel detect_cycle uses. -/
def dfsF : Nat → Graph → String → List String → List String →
    Option (Bool × List String)
  | 0, _, _, _, _ => none
  | f + 1, g, node, visited, stack =>
    dfsListGo (dfsF f g) (adj g node) (node :: visited) (node :: stack)

/-- Fuel that always suffices: one unit per distinct name plus one. -/
def fuelFor (g : Graph) : Nat := (allNames g).dedup.length + 1

/-- Closure invariant of the traversal: every visited node off the active
stack has all of its successors visited and off the stack. -/
def ClosedInv (g : Graph) (visited stack : List String) : Prop :=
  ∀ u, u ∈ visited → u ∉ stack → ∀ w ∈ adj g u, w ∈ visited ∧ w ∉ stack

/-- Acyclicity invariant of the traversal: no directed cycle passes through
a visited node that is off the active stack. -/
def NoCycInv (g : Graph) (visited stack : List String) : Prop :=
  ∀ u, u ∈ visited → u ∉ stack → ¬ Relation.TransGen (Edge g) u u

/-- How many entries of u are not yet visited; the dfs fuel measure. -/
def unvisitedCount (u visited : List String) : Nat :=
  (u.filter (fun x => decide (x ∉ visited))).length

/-- The top loop of detect_cycle: start a dfs from every not yet visited key,
sharing the visited set across starts; each start uses a fresh empty stack. -/
def detectLoop (g : Graph) : List String → List String → Option Bool
  | [], _ => some false
  | n :: rest, visited =>
    if n ∉ visited then
      match dfsF (fuelFor g) g n visited [] with
      | none => none
      | some (true, _) => some true
      | some (false, v) => detectLoop g rest v
    else detectLoop g rest visited

/-- Pipeline.detect_cycle: true when the committed graph has a directed
cycle.  The getD default is dead code: detectLoop is proven total below. -/
def detect_cycle (g : Graph) : Bool :=
  (detectLoop g (keys g) []).getD false

/-!
Graph builder (Pipeline.add, pipeline.py lines 142-176) together with the
in-degree map self.deps (a defaultdict(int)).
-/

/-- In-degree map: step name to count, insertion ordered. -/
abbrev DepsL := List (String × Int)

/-- Reading the in-degree of a step; missing keys read as 0 (defaultdict). -/
def depsGet : DepsL → String → Int
  | [], _ => 0
  | (k, v) :: rest, n => if k = n then v else depsGet rest n

/-- The statement self.deps[step] += 1 on a defaultdict(int). -/
def depsIncr : DepsL → String → DepsL
  | [], n => [(n, 1)]
  | (k, v) :: rest, n =>
    if k = n then (k, v + 1) :: rest else (k, v) :: depsIncr rest n

/-- Builder state: the adjacency dictionary and the in-degree map. -/
structure BuilderState where
  graph : Graph
  deps : DepsL
deriving DecidableEq

/-- A fresh Pipeline (empty graph, empty in-degree map). -/
def Pipeline.init : BuilderState := ⟨[], []⟩

/-- Pipeline.add (pipeline.py lines 142-176), translated statement by
statement: register the step key (bare defaultdict access), accept trivially
without a dependency, reject self dependencies and already present edges,
otherwise tentatively append the edge, run detect_cycle, and on success
append the edge a second time (exactly as the source does) and increment the
dependent's in-degree; on a detected cycle remove the tentative edge. -/
def Pipeline.add (st : BuilderState) (step : String) (dependsOn : Option String) :
    BuilderState × Bool :=
  let g0 := touch st.graph step
  match dependsOn with
  | none => (⟨g0, st.deps⟩, true)
  | some d =>
    if d = step then (⟨g0, st.deps⟩, false)
    else
      let g1 := touch g0 d
      if step ∈ adj g1 d then (⟨g1, st.deps⟩, false)
      else
        let g2 := appendEdge g1 d step
        if detect_cycle g2 then (⟨removeEdge g2 d step, st.deps⟩, false)
        else (⟨appendEdge g2 d step, depsIncr st.deps step⟩, true)

/-!
Concurrent scheduler (PipelineCursor, pipeline.py lines 24-121).  The control
loop repeatedly scans the queue of (step name, future) pairs for a completed
future, removes it, appends the step to the result list, decrements the
in-degree of every occurrence of every successor in the adjacency list, and
dispatches any successor whose in-degree reaches 0.  Which pending future
finishes first is thread timing; we expose it as an oracle: a list of
choices, each selecting the queue entry the loop removes next.  A step whose
configuration lacks the uses key makes PipelineCursor.execute fall through
and return None (pipeline.py lines 51-74); examining such an entry in the
loop calls .done() on None and raises AttributeError, modeled as the error
branch of schedLoop.
-/

/-- Static inputs of one scheduler run: the committed adjacency structure
and, per step name, whether its configuration declares an action name under
the uses key. -/
structure SchedCfg where
  graph : Graph
  act : List (String × Bool)
deriving DecidableEq

/-- Whether a step's context declares an action (context.get of uses). -/
def actOf : List (String × Bool) → String → Bool
  | [], _ => false
  | (k, b) :: rest, n => if k = n then b else actOf rest n

/-- Dispatching a step (the call to self.execute inside the control loop):
the queue entry holds the future returned by executor.submit, or none when
execute returned None because no action name was declared. -/
def dispatch (cfg : SchedCfg) (n : String) : String × Option Unit :=
  (n, if actOf cfg.act n then some () else none)

/-- The statement deps[neighbor] -= 1 on the run-local defaultdict copy. -/
def depsDec : DepsL → String → DepsL
  | [], n => [(n, -1)]
  | (k, v) :: rest, n =>
    if k = n then (k, v - 1) :: rest else (k, v) :: depsDec rest n

/-- The seed loop: every key whose in-degree reads 0 is dispatched. -/
def seedQ (cfg : SchedCfg) (deps : DepsL) : List (String × Option Unit) :=
  ((keys cfg.graph).filter (fun s => decide (depsGet deps s = 0))).map (dispatch cfg)

/-- The successor loop run after a completion: decrement each occurrence in
the successor list in order and dispatch a successor the moment its
in-degree reads 0. -/
def advance (cfg : SchedCfg) :
    List String → DepsL → List (String × Option Unit) →
    DepsL × List (String × Option Unit)
  | [], d, q => (d, q)
  | n :: rest, d, q =>
    let d1 := depsDec d n
    if depsGet d1 n = 0 then advance cfg rest d1 (q ++ [dispatch cfg n])
    else advance cfg rest d1 q

/-- Run-local state of one scheduler invocation. -/
structure SchedState where
  q : List (String × Option Unit)
  deps : DepsL
  result : List String
deriving DecidableEq

/-- The while loop of PipelineCursor.__call__: each oracle choice names the
pending entry whose future the scan finds completed next (taken modulo the
queue length).  Examining an entry whose future is none is the call
execution.done() on None and raises.  An exhausted oracle with work still
pending means the modeled run is cut short, reported as an error distinct
from normal completion. -/
def schedLoop (cfg : SchedCfg) : List Nat → SchedState → Except String (List String)
  | _, ⟨[], _, res⟩ => .ok res
  | [], ⟨_ :: _, _, _⟩ => .error "oracle exhausted with pending work"
  | c :: cs, ⟨q0 :: qr, deps, res⟩ =>
    let q := q0 :: qr
    let i := c % q.length
    let entry := q.getD i ("", none)
    match entry.2 with
    | none => .error "AttributeError"
    | some _ =>
      let p := advance cfg (adj cfg.graph entry.1) deps (q.eraseIdx i)
      schedLoop cfg cs ⟨p.2, p.1, res ++ [entry.1]⟩

/-- PipelineCursor.__call__ (pipeline.py lines 77-121): copy the in-degree
map, seed the queue with zero in-degree steps, then run the control loop. -/
def schedRun (cfg : SchedCfg) (deps0 : DepsL) (choices : List Nat) :
    Except String (List String) :=
  schedLoop cfg choices ⟨seedQ cfg deps0, deps0, []⟩

/-!
Per-step dispatch and the step-run recorder guards
(PipelineCursor.execute, pipeline.py lines 44-74; JobLogHandler,
log.py lines 126-191).  The recorder's persistence layer can raise; we model
that with a Boolean oracle dbFails.  In the source, failed, success and
start wrap their body in try/except and return False on an exception, while
create has no guard at all, so an exception raised by its save propagates to
the caller.
-/

/-- The save path of the recorder, which raises when persistence fails. -/
def saveOp (dbFails : Bool) : Except String Bool :=
  if dbFails then .error "RecorderError" else .ok true

/-- JobLogHandler.create (log.py lines 135-146): stages the new row and
saves, with no exception guard, so a persistence failure escapes. -/
def JobLogHandlerExc.create (dbFails : Bool) : Except String Unit := do
  let _ ← saveOp dbFails
  return ()

/-- JobLogHandler.failed (log.py lines 148-160): try/except, returns False
on a persistence failure instead of raising. -/
def JobLogHandlerExc.failed (dbFails : Bool) : Bool :=
  match saveOp dbFails with
  | .ok _ => true
  | .error _ => false

/-- JobLogHandler.success (log.py lines 162-174): same guard as failed. -/
def JobLogHandlerExc.success (dbFails : Bool) : Bool :=
  match saveOp dbFails with
  | .ok _ => true
  | .error _ => false

/-- JobLogHandler.start (log.py lines 176-183): same guard as failed. -/
def JobLogHandlerExc.start (dbFails : Bool) : Bool :=
  match saveOp dbFails with
  | .ok _ => true
  | .error _ => false

/-- Recorder lifecycle writes issued by one dispatch. -/
inductive RecEvent
  | create
  | start
  | success
  | failed
deriving DecidableEq

/-- Observable outcome of one PipelineCursor.execute call: the recorder
writes it performed, whether the error policy was invoked, and the returned
future carrying the eventual outcome of the submitted invocation (true when
the action will complete successfully). -/
structure DispatchResult where
  events : List RecEvent
  errorPolicyInvoked : Bool
  future : Option Bool
deriving DecidableEq

/-- PipelineCursor.execute (pipeline.py lines 44-74), statement by
statement.  Without a uses key the body is skipped and the function returns
None.  Otherwise create and start run before the try block, so a recorder
failure in create escapes into the caller.  The try block contains only
executor.submit: success is recorded as soon as submission returns, and the
except branch (failed plus error policy) runs only when submit itself
raises.  The submitted action runs later inside the pool; its outcome lands
in the future and is never examined by execute, so actionSucceeds does not
influence any recorder write. -/
def executeDispatch (uses : Option String) (dbFails submitRaises actionSucceeds : Bool) :
    Except String DispatchResult :=
  match uses with
  | none => .ok ⟨[], false, none⟩
  | some _ =>
    match JobLogHandlerExc.create dbFails with
    | .error e => .error e
    | .ok _ =>
      let _ := JobLogHandlerExc.start dbFails
      if submitRaises then
        let _ := JobLogHandlerExc.failed dbFails
        .ok ⟨[.create, .start, .failed], true, none⟩
      else
        let _ := JobLogHandlerExc.success dbFails
        .ok ⟨[.create, .start, .success], false, some actionSucceeds⟩

/-!
Persisted step-run rows (LogTable and JobLogHandler, log.py lines 25-174),
on the path where persistence succeeds (the raising path is modeled above).
Timestamps, the uuid suffix and the ttl value are opaque strings supplied as
parameters.  set_attr stages a column value in the changes dictionary; save
upserts: when a row with the run_id exists it updates exactly the staged
columns of every such row, otherwise it inserts a fresh row built from the
staged columns and the schema defaults, and in both cases clears the stage
buffer.
-/

/-- One row of the current_execution table (schema at log.py lines 42-58).
Absent values are SQL NULL. -/
structure Row where
  run_id : Option String := none
  job_name : Option String := none
  step_name : Option String := none
  status : Option String := none
  start_ts : Option String := none
  end_ts : Option String := none
  partition_value : Option String := none
  params : Option String := none
  error_message : Option String := none
  log_path : Option String := none
  ttl : Option String := none
  created_by : Option String := some "system"
  created_at : Option String := none
  last_updated_at : Option String := none
deriving DecidableEq

/-- A freshly inserted row before staged columns are applied: the schema
defaults created_by to the literal system and created_at to the database
clock, passed in as dbNow. -/
def blankRow (dbNow : String) : Row := { created_at := some dbNow }

/-- Writing one named column of a row. -/
def setCol (r : Row) (k v : String) : Row :=
  match k with
  | "run_id" => { r with run_id := some v }
  | "job_name" => { r with job_name := some v }
  | "step_name" => { r with step_name := some v }
  | "status" => { r with status := some v }
  | "start_ts" => { r with start_ts := some v }
  | "end_ts" => { r with end_ts := some v }
  | "partition_value" => { r with partition_value := some v }
  | "params" => { r with params := some v }
  | "error_message" => { r with error_message := some v }
  | "log_path" => { r with log_path := some v }
  | "ttl" => { r with ttl := some v }
  | "last_updated_at" => { r with last_updated_at := some v }
  | _ => r

/-- Applying the staged columns in order. -/
def applyChanges (r : Row) (cs : List (String × String)) : Row :=
  cs.foldl (fun r kv => setCol r kv.1 kv.2) r

/-- The staged-changes dictionary: updating an existing key in place,
appending a new one (Python dict update semantics). -/
def stageChange : List (String × String) → String → String → List (String × String)
  | [], k, v => [(k, v)]
  | (k0, v0) :: rest, k, v =>
    if k0 = k then (k0, v) :: rest else (k0, v0) :: stageChange rest k v

/-- LogTable state: persisted rows plus the staged-changes buffer. -/
structure LogTable where
  rows : List Row
  changes : List (String × String)
deriving DecidableEq

/-- LogTable.set_attr (log.py lines 106-110): stage one column change. -/
def LogTable.set_attr (t : LogTable) (k v : String) : LogTable :=
  { t with changes := stageChange t.changes k v }

/-- The rows matching a run_id (the WHERE clause of get and of the update). -/
def rowsFor (t : LogTable) (rid : String) : List Row :=
  t.rows.filter (fun r => decide (r.run_id = some rid))

/-- LogTable.save (log.py lines 68-84): SELECT COUNT on the run_id decides
between UPDATE of the staged columns and INSERT of a fresh row; either way
the stage buffer is cleared. -/
def LogTable.save (t : LogTable) (rid : String) (dbNow : String) : LogTable :=
  if (rowsFor t rid).length ≠ 0 then
    { rows := t.rows.map fun r =>
        if r.run_id = some rid then applyChanges r t.changes else r
      changes := [] }
  else
    { rows := t.rows ++ [applyChanges (blankRow dbNow) t.changes]
      changes := [] }

/-- Recorder session state: the active run_id and the table. -/
structure JobLogHandler where
  run_id : String
  log_table : LogTable
deriving DecidableEq

/-- The run_id minted by create: name, a literal separator, and the uuid. -/
def runIdOf (name uuid : String) : String := name ++ "#$" ++ uuid

/-- JobLogHandler.create (log.py lines 135-146) on the non-raising path:
mint the run_id, stage run_id, job_name, step_name, start_ts, ttl,
last_updated_at and params, then save. -/
def JobLogHandler.create (h : JobLogHandler)
    (name params uuid now ttl dbNow : String) : JobLogHandler :=
  let rid := runIdOf name uuid
  let t := h.log_table
    |>.set_attr "run_id" rid
    |>.set_attr "job_name" name
    |>.set_attr "step_name" name
    |>.set_attr "start_ts" now
    |>.set_attr "ttl" ttl
    |>.set_attr "last_updated_at" now
    |>.set_attr "params" params
  ⟨rid, t.save rid dbNow⟩

/-- JobLogHandler.success (log.py lines 162-174) on the non-raising path:
stage status SUCCESS, end_ts and last_updated_at, save under the active
run_id, then blank the run_id. -/
def JobLogHandler.success (h : JobLogHandler) (now dbNow : String) : JobLogHandler :=
  let t := h.log_table
    |>.set_attr "status" "SUCCESS"
    |>.set_attr "end_ts" now
    |>.set_attr "last_updated_at" now
  ⟨"", t.save h.run_id dbNow⟩

/-- JobLogHandler.failed (log.py lines 148-160) on the non-raising path:
stage status FAILED, the error message, end_ts and last_updated_at, save
under the active run_id, then blank the run_id. -/
def JobLogHandler.failed (h : JobLogHandler) (error_message now dbNow : String) :
    JobLogHandler :=
  let t := h.log_table
    |>.set_attr "status" "FAILED"
    |>.set_attr "error_message" error_message
    |>.set_attr "end_ts" now
    |>.set_attr "last_updated_at" now
  ⟨"", t.save h.run_id dbNow⟩

/-!
Job report and the run entry point (contexts/pipeline.py lines 53-71,
pipeline.py lines 212-226).
-/

/-- JobReport.__init__: start_ts is the clock at construction, end_ts is
unset, exit_code starts at -1 and errors at None. -/
structure JobReport where
  start_ts : String
  end_ts : Option String := none
  exit_code : Int := -1
  errors : Option (List String) := none
deriving DecidableEq

/-- What one call of Pipeline.run leaves behind: the Python return value
(the function body has no return statement, so it is None), the job report
it constructed, and the scheduler outcome. -/
structure RunOutcome where
  retVal : Option JobReport
  report : JobReport
  schedResult : Except String (List String)

/-- Pipeline.run (pipeline.py lines 212-226): build a JobReport via
_start_job_report, announce the run (declare only prints and connects the
log table), construct the cursor over the built graph and in-degree map, and
invoke it on the partition value.  The report is never finalized: neither
log_end_time nor log_exit_code is called, _report_pipeline_run has no
caller, and the function returns None.  The partition value only flows into
the dispatched actions' parameters, which the scheduler model does not
track. -/
def Pipeline.run (graph : Graph) (deps : DepsL) (act : List (String × Bool))
    (partition_value now : String) (choices : List Nat) : RunOutcome :=
  let report : JobReport := { start_ts := now }
  let res := schedRun ⟨graph, act⟩ deps choices
  { retVal := none, report := report, schedResult := res }

/-!
Concrete scenario states used by the theorems below.
-/

/-- First declaration of the build-time cycle scenario: A depends_on B. -/
def cycleBuild1 : BuilderState × Bool := Pipeline.add Pipeline.init "A" (some "B")

/-- Second declaration of the build-time cycle scenario: B depends_on A. -/
def cycleBuild2 : BuilderState × Bool := Pipeline.add cycleBuild1.1 "B" (some "A")

/-- Builder run of the scenario with two prerequisites: A and B independent,
C declared as depending on A and then as depending on B. -/
def twoPrereqBuild : BuilderState :=
  (Pipeline.add (Pipeline.add (Pipeline.add (Pipeline.add Pipeline.init
    "A" none).1 "B" none).1 "C" (some "A")).1 "C" (some "B")).1

/-- Scheduler configuration for that build: every step declares an action. -/
def twoPrereqCfg : SchedCfg :=
  ⟨twoPrereqBuild.graph, [("A", true), ("B", true), ("C", true)]⟩

end Ingest

namespace Ingest

/-- Appending a fresh empty entry never changes any adjacency read. -/
theorem adj_append_absent (g : Graph) (k n : String) :
    adj (g ++ [(k, [])]) n = adj g n := by
  induction g with
  | nil => simp only [List.nil_append, adj]; split <;> rfl
  | cons p rest ih =>
    obtain ⟨k0, vs⟩ := p
    simp only [List.cons_append, adj]
    split <;> simp [ih]

/-- Registering a key on the defaultdict never changes any adjacency read. -/
theorem adj_touch (g : Graph) (k n : String) : adj (touch g k) n = adj g n := by
  unfold touch
  split
  · rfl
  · exact adj_append_absent g k n

/-- Touching a key that is already registered is the identity. -/
theorem touch_of_hasKey (g : Graph) (k : String) (h : hasKey g k = true) :
    touch g k = g := by
  unfold touch
  simp [h]

/-- C1: the dispatch path evaluated at a step whose submission to the pool
succeeds but whose invocation fails (actionSucceeds = false): the recorder
writes are create, start, success — SUCCESS is recorded at submission time,
no FAILED write ever happens and the error policy is never invoked, because
the try block around executor.submit can only observe submission errors,
never the outcome of the asynchronous invocation carried by the future. -/
theorem execute_records_success_despite_action_failure :
    executeDispatch (some "extract") false false false =
      .ok ⟨[.create, .start, .success], false, some false⟩ := rfl

/-- C2: evaluating Pipeline.add for the edge A to B on a fresh pipeline: the
call succeeds, but the successor list of A holds B twice — the tentative
append is not rolled back before the commit append — while the in-degree of
B is incremented once, so the committed adjacency list does not contain the
edge exactly once as claimed. -/
theorem add_commits_edge_twice :
    Pipeline.add Pipeline.init "B" (some "A") =
      (⟨[("B", []), ("A", ["B", "B"])], [("B", 1)]⟩, true) ∧
    (adj (Pipeline.add Pipeline.init "B" (some "A")).1.graph "A").count "B" = 2 ∧
    depsGet (Pipeline.add Pipeline.init "B" (some "A")).1.deps "B" = 1 := by
  decide

/-- C3: on the graph built by declaring C depends_on A and C depends_on B,
the committed edge from B to C exists, yet the scheduler can complete the
run in the order A, C, B: the duplicated adjacency entries make A's
completion decrement C's in-degree twice, so C is dispatched before its
prerequisite B has completed, violating the claimed completion-order
guarantee for committed edges. -/
theorem scheduler_violates_edge_order_on_double_edges :
    twoPrereqBuild.graph = [("A", ["C", "C"]), ("B", ["C", "C"]), ("C", [])] ∧
    twoPrereqBuild.deps = [("C", 2)] ∧
    Edge twoPrereqBuild.graph "B" "C" ∧
    schedRun twoPrereqCfg twoPrereqBuild.deps [0, 1, 0] = .ok ["A", "C", "B"] :=
  ⟨by decide, by decide, by unfold Edge; decide, rfl⟩

/-- C5 counterexample: a self-dependency on a name not yet registered is
rejected, but the graph is not byte-for-byte unchanged: the bare defaultdict
access at the top of Pipeline.add registers the name with an empty successor
list before the rejection check runs. -/
theorem add_self_dep_registers_node :
    Pipeline.add Pipeline.init "A" (some "A") = (⟨[("A", [])], []⟩, false) ∧
    (Pipeline.add Pipeline.init "A" (some "A")).1.graph ≠ Pipeline.init.graph := by
  decide

/-- Every element of the active stack reaches the current head node along
edges: the stack is threaded as a path from each member up to the head. -/
theorem chain_to_head (g : Graph) :
    ∀ (st : List String) (a : String),
      List.Chain' (fun x y => Edge g y x) (a :: st) →
      ∀ n ∈ a :: st, Relation.ReflTransGen (Edge g) n a := by
  intro st
  induction st with
  | nil =>
    intro a _ n hn
    have hna : n = a := by simpa using hn
    subst hna
    exact Relation.ReflTransGen.refl
  | cons b rest ih =>
    intro a hch n hn
    have hca := List.chain'_cons.mp hch
    rcases List.mem_cons.mp hn with h | h
    · subst h; exact Relation.ReflTransGen.refl
    · exact (ih b hca.2 n h).tail hca.1

/-- Soundness of the neighbor loop: a positive answer from the loop over the
successors of the stack head yields a directed cycle, assuming the recursive
call is itself sound on an extended stack. -/
theorem dfsListGo_sound (g : Graph) (cur : String) (stack : List String)
    (rec : String → List String → List String → Option (Bool × List String))
    (hch : List.Chain' (fun x y => Edge g y x) (cur :: stack))
    (hrec : ∀ n visited v,
      List.Chain' (fun x y => Edge g y x) (n :: cur :: stack) →
      rec n visited (cur :: stack) = some (true, v) → hasCycle g) :
    ∀ (l visited v : List String), (∀ n ∈ l, Edge g cur n) →
      dfsListGo rec l visited (cur :: stack) = some (true, v) → hasCycle g := by
  intro l
  induction l with
  | nil => intro visited v _ h; simp [dfsListGo] at h
  | cons n rest ih =>
    intro visited v hl h
    simp only [dfsListGo] at h
    by_cases hnv : n ∈ visited
    · rw [if_neg (not_not_intro hnv)] at h
      by_cases hns : n ∈ cur :: stack
      · have hpath := chain_to_head g stack cur hch n hns
        exact ⟨n, Relation.TransGen.tail' hpath (hl n (List.mem_cons_self n rest))⟩
      · rw [if_neg hns] at h
        exact ih visited v (fun m hm => hl m (List.mem_cons_of_mem n hm)) h
    · rw [if_pos hnv] at h
      cases hr : rec n visited (cur :: stack) with
      | none => simp [hr] at h
      | some p =>
        obtain ⟨b, v1⟩ := p
        cases b
        · simp only [hr] at h
          exact ih v1 v (fun m hm => hl m (List.mem_cons_of_mem n hm)) h
        · exact hrec n visited v1
            (List.chain'_cons.mpr ⟨hl n (List.mem_cons_self n rest), hch⟩) hr

/-- Soundness of one dfs call: a positive answer yields a directed cycle. -/
theorem dfsF_sound :
    ∀ (f : Nat) (g : Graph) (node : String) (visited stack v : List String),
      List.Chain' (fun x y => Edge g y x) (node :: stack) →
      dfsF f g node visited stack = some (true, v) → hasCycle g := by
  intro f
  induction f with
  | zero => intro g node visited stack v _ h; simp [dfsF] at h
  | succ f ih =>
    intro g node visited stack v hch h
    simp only [dfsF] at h
    exact dfsListGo_sound g node stack (dfsF f g) hch
      (fun n vis v1 hc he => ih g n vis (node :: stack) v1 hc he)
      (adj g node) (node :: visited) v (fun n hn => hn) h

/-- Soundness of the top loop of detect_cycle. -/
theorem detectLoop_sound (g : Graph) :
    ∀ (l visited : List String), detectLoop g l visited = some true → hasCycle g := by
  intro l
  induction l with
  | nil => intro visited h; simp [detectLoop] at h
  | cons n rest ih =>
    intro visited h
    simp only [detectLoop] at h
    by_cases hnv : n ∈ visited
    · rw [if_neg (not_not_intro hnv)] at h
      exact ih visited h
    · rw [if_pos hnv] at h
      cases hr : dfsF (fuelFor g) g n visited [] with
      | none => simp [hr] at h
      | some p =>
        obtain ⟨b, v1⟩ := p
        cases b
        · simp only [hr] at h
          exact ih v1 h
        · exact dfsF_sound (fuelFor g) g n visited [] v1 (List.chain'_singleton n) hr

/-- Reachability stays inside the closed finished region. -/
theorem reach_stays (g : Graph) (visited stack : List String)
    (hCl : ClosedInv g visited stack) {a b : String}
    (hab : Relation.ReflTransGen (Edge g) a b) (ha1 : a ∈ visited) (ha2 : a ∉ stack) :
    b ∈ visited ∧ b ∉ stack := by
  induction hab with
  | refl => exact ⟨ha1, ha2⟩
  | tail hxy hyz ih =>
    obtain ⟨h1, h2⟩ := ih
    exact hCl _ h1 h2 _ hyz

/-- When a node is popped with all of its successors finished, no directed
cycle passes through it: any cycle would re-enter the node from the closed
finished region while the node still sits on the stack. -/
theorem noCyc_extend (g : Graph) (visited stack : List String) (cur : String)
    (hCl : ClosedInv g visited (cur :: stack))
    (hadj : ∀ w ∈ adj g cur, w ∈ visited ∧ w ∉ cur :: stack) :
    ¬ Relation.TransGen (Edge g) cur cur := by
  intro hcyc
  obtain ⟨w, hw, hwc⟩ := Relation.TransGen.head'_iff.mp hcyc
  have hw1 := hadj w hw
  have hfin := reach_stays g visited (cur :: stack) hCl hwc hw1.1 hw1.2
  exact hfin.2 (List.mem_cons_self cur stack)

/-- Completeness of the neighbor loop: a negative answer leaves every listed
successor finished and preserves the closure and acyclicity invariants,
assuming the recursive call does the same. -/
theorem dfsListGo_complete (g : Graph)
    (rec : String → List String → List String → Option (Bool × List String))
    (stack0 : List String)
    (hrec : ∀ n visited v, n ∉ visited → stack0 ⊆ visited →
      ClosedInv g visited stack0 → NoCycInv g visited stack0 →
      rec n visited stack0 = some (false, v) →
      visited ⊆ v ∧ n ∈ v ∧ ClosedInv g v stack0 ∧ NoCycInv g v stack0 ∧
      (∀ x ∈ v, x ∈ visited ∨ x ∉ stack0)) :
    ∀ (l visited v : List String),
      stack0 ⊆ visited → ClosedInv g visited stack0 → NoCycInv g visited stack0 →
      dfsListGo rec l visited stack0 = some (false, v) →
      visited ⊆ v ∧ (∀ n ∈ l, n ∈ v ∧ n ∉ stack0) ∧
      ClosedInv g v stack0 ∧ NoCycInv g v stack0 ∧
      (∀ x ∈ v, x ∈ visited ∨ x ∉ stack0) := by
  intro l
  induction l with
  | nil =>
    intro visited v hsub hCl hNC h
    simp only [dfsListGo, Option.some.injEq, Prod.mk.injEq, true_and] at h
    subst h
    exact ⟨fun x hx => hx, by simp, hCl, hNC, fun x hx => Or.inl hx⟩
  | cons n rest ih =>
    intro visited v hsub hCl hNC h
    simp only [dfsListGo] at h
    by_cases hnv : n ∈ visited
    · rw [if_neg (not_not_intro hnv)] at h
      by_cases hns : n ∈ stack0
      · rw [if_pos hns] at h
        exact absurd h (by simp)
      · rw [if_neg hns] at h
        obtain ⟨h1, h2, h3, h4, h5⟩ := ih visited v hsub hCl hNC h
        refine ⟨h1, ?_, h3, h4, h5⟩
        intro m hm
        rcases List.mem_cons.mp hm with rfl | hm'
        · exact ⟨h1 hnv, hns⟩
        · exact h2 m hm'
    · rw [if_pos hnv] at h
      cases hr : rec n visited stack0 with
      | none => simp [hr] at h
      | some p =>
        obtain ⟨b, v1⟩ := p
        cases b
        · simp only [hr] at h
          obtain ⟨r1, r2, r3, r4, r5⟩ := hrec n visited v1 hnv hsub hCl hNC hr
          obtain ⟨s1, s2, s3, s4, s5⟩ := ih v1 v (hsub.trans r1) r3 r4 h
          have hnstack : n ∉ stack0 := fun hn => hnv (hsub hn)
          refine ⟨r1.trans s1, ?_, s3, s4, ?_⟩
          · intro m hm
            rcases List.mem_cons.mp hm with rfl | hm'
            · exact ⟨s1 r2, hnstack⟩
            · exact s2 m hm'
          · intro x hx
            rcases s5 x hx with hx1 | hx2
            · rcases r5 x hx1 with hx3 | hx3
              · exact Or.inl hx3
              · exact Or.inr hx3
            · exact Or.inr hx2
        · simp [hr] at h

/-- Completeness of one dfs call: a negative answer finishes the node and
preserves the closure and acyclicity invariants with respect to the caller's
stack. -/
theorem dfsF_complete :
    ∀ (f : Nat) (g : Graph) (node : String) (visited stack v : List String),
      node ∉ visited → stack ⊆ visited →
      ClosedInv g visited stack → NoCycInv g visited stack →
      dfsF f g node visited stack = some (false, v) →
      visited ⊆ v ∧ node ∈ v ∧ ClosedInv g v stack ∧ NoCycInv g v stack ∧
      (∀ x ∈ v, x ∈ visited ∨ x ∉ stack) := by
  intro f
  induction f with
  | zero => intro g node visited stack v _ _ _ _ h; simp [dfsF] at h
  | succ f ih =>
    intro g node visited stack v hnv hsub hCl hNC h
    simp only [dfsF] at h
    have hnstack : node ∉ stack := fun hn => hnv (hsub hn)
    have hsub0 : (node :: stack) ⊆ (node :: visited) := by
      intro x hx
      rcases List.mem_cons.mp hx with rfl | hx'
      · exact List.mem_cons_self _ _
      · exact List.mem_cons_of_mem _ (hsub hx')
    have hCl0 : ClosedInv g (node :: visited) (node :: stack) := by
      intro u hu hus w hw
      have hune : u ≠ node := fun he => hus (he ▸ List.mem_cons_self _ _)
      have hu1 : u ∈ visited := by
        rcases List.mem_cons.mp hu with he | hx
        · exact absurd he hune
        · exact hx
      have hus1 : u ∉ stack := fun hc => hus (List.mem_cons_of_mem _ hc)
      obtain ⟨hw1, hw2⟩ := hCl u hu1 hus1 w hw
      refine ⟨List.mem_cons_of_mem _ hw1, ?_⟩
      intro hc
      rcases List.mem_cons.mp hc with he | hc'
      · exact hnv (he ▸ hw1)
      · exact hw2 hc'
    have hNC0 : NoCycInv g (node :: visited) (node :: stack) := by
      intro u hu hus
      have hune : u ≠ node := fun he => hus (he ▸ List.mem_cons_self _ _)
      have hu1 : u ∈ visited := by
        rcases List.mem_cons.mp hu with he | hx
        · exact absurd he hune
        · exact hx
      have hus1 : u ∉ stack := fun hc => hus (List.mem_cons_of_mem _ hc)
      exact hNC u hu1 hus1
    obtain ⟨p1, p2, p3, p4, p5⟩ := dfsListGo_complete g (dfsF f g) (node :: stack)
      (fun n vis v1 a b c d e => ih g n vis (node :: stack) v1 a b c d e)
      (adj g node) (node :: visited) v hsub0 hCl0 hNC0 h
    have hnodev : node ∈ v := p1 (List.mem_cons_self _ _)
    have hvsub : visited ⊆ v := fun x hx => p1 (List.mem_cons_of_mem _ hx)
    refine ⟨hvsub, hnodev, ?_, ?_, ?_⟩
    · intro u hu hus w hw
      by_cases hun : u = node
      · subst hun
        obtain ⟨hw1, hw2⟩ := p2 w hw
        exact ⟨hw1, fun hc => hw2 (List.mem_cons_of_mem _ hc)⟩
      · have hus0 : u ∉ node :: stack := by
          intro hc
          rcases List.mem_cons.mp hc with he | hc'
          · exact hun he
          · exact hus hc'
        obtain ⟨hw1, hw2⟩ := p3 u hu hus0 w hw
        exact ⟨hw1, fun hc => hw2 (List.mem_cons_of_mem _ hc)⟩
    · intro u hu hus
      by_cases hun : u = node
      · subst hun
        exact noCyc_extend g v stack _ p3 p2
      · have hus0 : u ∉ node :: stack := by
          intro hc
          rcases List.mem_cons.mp hc with he | hc'
          · exact hun he
          · exact hus hc'
        exact p4 u hu hus0
    · intro x hx
      rcases p5 x hx with hx1 | hx2
      · rcases List.mem_cons.mp hx1 with rfl | hxv
        · exact Or.inr hnstack
        · exact Or.inl hxv
      · exact Or.inr fun hc => hx2 (List.mem_cons_of_mem _ hc)

/-- Completeness of the top loop: a negative answer yields a visited set
covering all starts that satisfies the empty-stack invariants. -/
theorem detectLoop_complete (g : Graph) :
    ∀ (l visited : List String),
      ClosedInv g visited [] → NoCycInv g visited [] →
      detectLoop g l visited = some false →
      ∃ v, visited ⊆ v ∧ (∀ n ∈ l, n ∈ v) ∧ ClosedInv g v [] ∧ NoCycInv g v [] := by
  intro l
  induction l with
  | nil =>
    intro visited hCl hNC _
    exact ⟨visited, fun x hx => hx, by simp, hCl, hNC⟩
  | cons n rest ih =>
    intro visited hCl hNC h
    simp only [detectLoop] at h
    by_cases hnv : n ∈ visited
    · rw [if_neg (not_not_intro hnv)] at h
      obtain ⟨v, h1, h2, h3, h4⟩ := ih visited hCl hNC h
      refine ⟨v, h1, ?_, h3, h4⟩
      intro m hm
      rcases List.mem_cons.mp hm with rfl | hm'
      · exact h1 hnv
      · exact h2 m hm'
    · rw [if_pos hnv] at h
      cases hr : dfsF (fuelFor g) g n visited [] with
      | none => simp [hr] at h
      | some p =>
        obtain ⟨b, v1⟩ := p
        cases b
        · simp only [hr] at h
          obtain ⟨q1, q2, q3, q4, q5⟩ := dfsF_complete (fuelFor g) g n visited [] v1 hnv
            (List.nil_subset _) hCl hNC hr
          obtain ⟨v, h1, h2, h3, h4⟩ := ih v1 q3 q4 h
          refine ⟨v, q1.trans h1, ?_, h3, h4⟩
          intro m hm
          rcases List.mem_cons.mp hm with rfl | hm'
          · exact h1 q2
          · exact h2 m hm'
        · simp [hr] at h

/-- Growing the visited set can only shrink the unvisited count. -/
theorem unvisitedCount_mono (u : List String) {visited v : List String}
    (h : visited ⊆ v) : unvisitedCount u v ≤ unvisitedCount u visited := by
  induction u with
  | nil => exact Nat.le_refl _
  | cons x u ih =>
    simp only [unvisitedCount, List.filter_cons] at ih ⊢
    by_cases hxv : x ∈ v
    · have d1 : decide (x ∉ v) = false := by simp [hxv]
      rw [d1]
      by_cases hx2 : x ∈ visited
      · have d2 : decide (x ∉ visited) = false := by simp [hx2]
        rw [d2]
        exact ih
      · have d2 : decide (x ∉ visited) = true := by simp [hx2]
        rw [d2]
        simp only [List.length_cons]
        exact Nat.le_succ_of_le ih
    · have hx2 : x ∉ visited := fun hc => hxv (h hc)
      have d1 : decide (x ∉ v) = true := by simp [hxv]
      have d2 : decide (x ∉ visited) = true := by simp [hx2]
      rw [d1, d2]
      simp only [List.length_cons]
      exact Nat.succ_le_succ ih

/-- Visiting a listed, not yet visited name strictly shrinks the count. -/
theorem unvisitedCount_cons_lt (u : List String) (n : String) (visited : List String)
    (hnu : n ∈ u) (hnv : n ∉ visited) :
    unvisitedCount u (n :: visited) < unvisitedCount u visited := by
  induction u with
  | nil => simp at hnu
  | cons x u ih =>
    simp only [unvisitedCount, List.filter_cons] at ih ⊢
    rcases List.mem_cons.mp hnu with heq | hx
    · subst heq
      have d1 : decide (n ∉ n :: visited) = false := by simp
      have d2 : decide (n ∉ visited) = true := by simp [hnv]
      rw [d1, d2]
      simp only [List.length_cons]
      exact Nat.lt_succ_of_le (unvisitedCount_mono u (List.subset_cons_self n visited))
    · by_cases hxn : x ∈ n :: visited
      · have d1 : decide (x ∉ n :: visited) = false := by simp [hxn]
        rw [d1]
        by_cases hx2 : x ∈ visited
        · have d2 : decide (x ∉ visited) = false := by simp [hx2]
          rw [d2]
          exact ih hx
        · have d2 : decide (x ∉ visited) = true := by simp [hx2]
          rw [d2]
          simp only [List.length_cons]
          exact Nat.lt_succ_of_lt (ih hx)
      · have hx2 : x ∉ visited := fun hc => hxn (List.mem_cons_of_mem _ hc)
        have d1 : decide (x ∉ n :: visited) = true := by simp [hxn]
        have d2 : decide (x ∉ visited) = true := by simp [hx2]
        rw [d1, d2]
        simp only [List.length_cons]
        exact Nat.succ_lt_succ (ih hx)

/-- A node with no entry in the dictionary reads an empty successor list. -/
theorem adj_eq_nil_of_not_key (g : Graph) (n : String) (h : n ∉ keys g) :
    adj g n = [] := by
  induction g with
  | nil => rfl
  | cons p rest ih =>
    obtain ⟨k, vs⟩ := p
    simp only [keys, List.map_cons, List.mem_cons, not_or] at h
    simp only [adj]
    rw [if_neg fun he => h.1 he.symm]
    exact ih (by simpa [keys] using h.2)

/-- Membership in allNames of a cons cell, as a disjunction. -/
theorem mem_allNames_cons {n k : String} {vs : List String} {rest : Graph} :
    n ∈ allNames ((k, vs) :: rest) ↔ n = k ∨ n ∈ vs ∨ n ∈ allNames rest := by
  simp only [allNames, keys, List.map_cons, List.flatten_cons, List.mem_append,
    List.mem_cons]
  tauto

/-- Keys occur among all names. -/
theorem keys_sub_allNames (g : Graph) : keys g ⊆ allNames g :=
  List.subset_append_left _ _

/-- Edge targets occur among all names. -/
theorem adj_sub_allNames (g : Graph) (cur : String) :
    ∀ n ∈ adj g cur, n ∈ allNames g := by
  induction g with
  | nil => intro n hn; simp [adj] at hn
  | cons p rest ih =>
    obtain ⟨k, vs⟩ := p
    intro n hn
    simp only [adj] at hn
    by_cases hk : k = cur
    · rw [if_pos hk] at hn
      exact mem_allNames_cons.mpr (Or.inr (Or.inl hn))
    · rw [if_neg hk] at hn
      exact mem_allNames_cons.mpr (Or.inr (Or.inr (ih n hn)))

/-- The visited set only grows along a dfs call. -/
theorem dfsF_mono :
    ∀ (f : Nat) (g : Graph) (node : String) (visited stack : List String)
      (b : Bool) (v : List String),
      dfsF f g node visited stack = some (b, v) → visited ⊆ v := by
  intro f
  induction f with
  | zero => intro g node visited stack b v h; simp [dfsF] at h
  | succ f ih =>
    intro g node visited stack b v h
    simp only [dfsF] at h
    have inner : ∀ (l vis st : List String) (b1 : Bool) (v1 : List String),
        dfsListGo (dfsF f g) l vis st = some (b1, v1) → vis ⊆ v1 := by
      intro l
      induction l with
      | nil =>
        intro vis st b1 v1 hh
        simp only [dfsListGo, Option.some.injEq, Prod.mk.injEq] at hh
        rw [← hh.2]
        exact fun x hx => hx
      | cons n rest ihl =>
        intro vis st b1 v1 hh
        simp only [dfsListGo] at hh
        by_cases hnv : n ∈ vis
        · rw [if_neg (not_not_intro hnv)] at hh
          by_cases hns : n ∈ st
          · rw [if_pos hns] at hh
            simp only [Option.some.injEq, Prod.mk.injEq] at hh
            rw [← hh.2]
            exact fun x hx => hx
          · rw [if_neg hns] at hh
            exact ihl vis st b1 v1 hh
        · rw [if_pos hnv] at hh
          cases hr : dfsF f g n vis st with
          | none => simp [hr] at hh
          | some p =>
            obtain ⟨b2, v2⟩ := p
            cases b2
            · simp only [hr] at hh
              exact (ih g n vis st false v2 hr).trans (ihl v2 st b1 v1 hh)
            · simp only [hr, Option.some.injEq, Prod.mk.injEq] at hh
              rw [← hh.2]
              exact ih g n vis st true v2 hr
    exact fun x hx =>
      inner (adj g node) (node :: visited) (node :: stack) b v h
        (List.mem_cons_of_mem _ hx)

/-- With fuel strictly above the number of distinct unvisited names, the dfs
never exhausts its fuel. -/
theorem dfsF_fuel :
    ∀ (f : Nat) (g : Graph) (node : String) (visited stack : List String),
      node ∈ allNames g → node ∉ visited →
      unvisitedCount (allNames g).dedup visited < f →
      dfsF f g node visited stack ≠ none := by
  intro f
  induction f with
  | zero => intro g node visited stack _ _ hlt; exact absurd hlt (Nat.not_lt_zero _)
  | succ f ih =>
    intro g node visited stack hmem hnv hlt
    simp only [dfsF]
    have hcount : unvisitedCount (allNames g).dedup (node :: visited) < f := by
      have h1 := unvisitedCount_cons_lt (allNames g).dedup node visited
        (List.mem_dedup.mpr hmem) hnv
      exact Nat.lt_of_lt_of_le h1 (Nat.lt_succ_iff.mp hlt)
    have inner : ∀ (l vis st : List String), (∀ n ∈ l, n ∈ allNames g) →
        unvisitedCount (allNames g).dedup vis < f →
        dfsListGo (dfsF f g) l vis st ≠ none := by
      intro l
      induction l with
      | nil => intro vis st _ _; simp [dfsListGo]
      | cons n rest ihl =>
        intro vis st hall hc
        simp only [dfsListGo]
        by_cases hnv2 : n ∈ vis
        · rw [if_neg (not_not_intro hnv2)]
          by_cases hns : n ∈ st
          · rw [if_pos hns]; simp
          · rw [if_neg hns]
            exact ihl vis st (fun m hm => hall m (List.mem_cons_of_mem _ hm)) hc
        · rw [if_pos hnv2]
          cases hr : dfsF f g n vis st with
          | none =>
            exact absurd hr (ih g n vis st (hall n (List.mem_cons_self _ _)) hnv2 hc)
          | some p =>
            obtain ⟨b1, v1⟩ := p
            cases b1
            · have hc2 : unvisitedCount (allNames g).dedup v1 < f :=
                Nat.lt_of_le_of_lt
                  (unvisitedCount_mono _ (dfsF_mono f g n vis st false v1 hr)) hc
              exact ihl v1 st (fun m hm => hall m (List.mem_cons_of_mem _ hm)) hc2
            · simp
    exact inner (adj g node) (node :: visited) (node :: stack)
      (adj_sub_allNames g node) hcount

/-- The top loop of detect_cycle over keys never exhausts its fuel. -/
theorem detectLoop_some (g : Graph) :
    ∀ (l visited : List String), (∀ n ∈ l, n ∈ keys g) →
      detectLoop g l visited ≠ none := by
  intro l
  induction l with
  | nil => intro visited _; simp [detectLoop]
  | cons n rest ih =>
    intro visited hall
    simp only [detectLoop]
    by_cases hnv : n ∈ visited
    · rw [if_neg (not_not_intro hnv)]
      exact ih visited (fun m hm => hall m (List.mem_cons_of_mem _ hm))
    · rw [if_pos hnv]
      cases hr : dfsF (fuelFor g) g n visited [] with
      | none =>
        exact absurd hr (dfsF_fuel (fuelFor g) g n visited []
          (keys_sub_allNames g (hall n (List.mem_cons_self _ _))) hnv
          (Nat.lt_succ_of_le (List.length_filter_le _ _)))
      | some p =>
        obtain ⟨b, v1⟩ := p
        cases b
        · exact ih v1 (fun m hm => hall m (List.mem_cons_of_mem _ hm))
        · simp

/-- A node on a directed cycle has an outgoing edge, hence is a key. -/
theorem hasCycle_node_is_key (g : Graph) {m : String}
    (h : Relation.TransGen (Edge g) m m) : m ∈ keys g := by
  obtain ⟨w, hw, _⟩ := Relation.TransGen.head'_iff.mp h
  by_contra hk
  rw [Edge, adj_eq_nil_of_not_key g m hk] at hw
  simp at hw

/-- C4: detect_cycle returns true exactly when the committed graph contains
a directed cycle; moreover the traversal is total — the top loop, which
starts a depth-first search from every not yet visited key and so covers
disconnected components, never exhausts the fuel bound charged one unit per
node push, which is how the Python recursion's termination (visited only
grows) is rendered in this embedding. -/
theorem detect_cycle_iff_hasCycle (g : Graph) :
    detectLoop g (keys g) [] = some (detect_cycle g) ∧
    (detect_cycle g = true ↔ hasCycle g) := by
  have hsome := detectLoop_some g (keys g) [] (fun n hn => hn)
  obtain ⟨b, hb⟩ := Option.ne_none_iff_exists'.mp hsome
  have hdc : detect_cycle g = b := by unfold detect_cycle; rw [hb]; rfl
  constructor
  · rw [hdc, hb]
  · rw [hdc]
    constructor
    · intro hbt
      exact detectLoop_sound g (keys g) [] (hbt ▸ hb)
    · intro hcyc
      by_contra hbf
      have hbfalse : b = false := by
        cases b
        · rfl
        · exact absurd rfl hbf
      rw [hbfalse] at hb
      obtain ⟨v, _, hall, _, hNC⟩ := detectLoop_complete g (keys g) []
        (fun u hu _ => absurd hu (List.not_mem_nil u))
        (fun u hu _ => absurd hu (List.not_mem_nil u)) hb
      obtain ⟨m, hm⟩ := hcyc
      exact hNC m (hall m (hasCycle_node_is_key g hm)) (List.not_mem_nil m) hm

/-- Saving with no row for the run_id takes the insert branch. -/
theorem save_insert (t : LogTable) (rid dbNow : String) (h : rowsFor t rid = []) :
    t.save rid dbNow = ⟨t.rows ++ [applyChanges (blankRow dbNow) t.changes], []⟩ := by
  simp [LogTable.save, h]

/-- Updating rows none of which carry the run_id is the identity. -/
theorem map_id_of_run_id_ne (rows : List Row) (rid : String) (f : Row → Row)
    (h : ∀ r ∈ rows, r.run_id ≠ some rid) :
    rows.map (fun r => if r.run_id = some rid then f r else r) = rows := by
  induction rows with
  | nil => rfl
  | cons r rest ih =>
    simp only [List.map_cons, if_neg (h r (List.mem_cons_self r rest))]
    rw [ih fun x hx => h x (List.mem_cons_of_mem r hx)]

/-- C5 amended: a rejected AddStep call (self-dependency or already present
edge) returns false and leaves every step's successor list and the whole
in-degree map unchanged; the only mutation is that a not yet registered name
is registered as a node with an empty successor list by the bare defaultdict
accesses, so the graph is byte-for-byte unchanged exactly when the names
consulted are already registered. -/
theorem add_rejection_preserves_adj_and_deps
    (st : BuilderState) (step d : String)
    (h : d = step ∨ step ∈ adj st.graph d) :
    (Pipeline.add st step (some d)).2 = false ∧
    (Pipeline.add st step (some d)).1.deps = st.deps ∧
    (∀ n, adj (Pipeline.add st step (some d)).1.graph n = adj st.graph n) ∧
    (hasKey st.graph step = true → (d = step ∨ hasKey st.graph d = true) →
      (Pipeline.add st step (some d)).1.graph = st.graph) := by
  by_cases hd : d = step
  · subst hd
    have e : Pipeline.add st d (some d) = (⟨touch st.graph d, st.deps⟩, false) := by
      simp [Pipeline.add]
    rw [e]
    exact ⟨rfl, rfl, fun n => adj_touch _ _ _, fun hk _ => touch_of_hasKey _ _ hk⟩
  · have hmem : step ∈ adj st.graph d := h.resolve_left hd
    have hmem1 : step ∈ adj (touch (touch st.graph step) d) d := by
      rw [adj_touch, adj_touch]; exact hmem
    have e : Pipeline.add st step (some d) =
        (⟨touch (touch st.graph step) d, st.deps⟩, false) := by
      simp [Pipeline.add, hd, hmem1]
    rw [e]
    refine ⟨rfl, rfl, fun n => by rw [adj_touch, adj_touch], ?_⟩
    intro hk hval
    have hkd : hasKey st.graph d = true := hval.resolve_left hd
    rw [touch_of_hasKey _ _ hk, touch_of_hasKey _ _ hkd]

/-- C5 amended, witness: the self-dependency rejection instantiated at a
registered node. -/
theorem add_rejection_preserves_adj_and_deps_witness :
    ("A" = "A" ∨ "A" ∈ adj ([("A", [])] : Graph) "A") ∧
    ((Pipeline.add ⟨[("A", [])], []⟩ "A" (some "A")).2 = false ∧
     (Pipeline.add ⟨[("A", [])], []⟩ "A" (some "A")).1.deps = [] ∧
     (∀ n, adj (Pipeline.add ⟨[("A", [])], []⟩ "A" (some "A")).1.graph n =
        adj ([("A", [])] : Graph) n) ∧
     (hasKey ([("A", [])] : Graph) "A" = true → ("A" = "A" ∨ hasKey ([("A", [])] : Graph) "A" = true) →
      (Pipeline.add ⟨[("A", [])], []⟩ "A" (some "A")).1.graph = [("A", [])])) :=
  ⟨Or.inl rfl, add_rejection_preserves_adj_and_deps ⟨[("A", [])], []⟩ "A" "A" (Or.inl rfl)⟩

/-- C6 counterexample: after declaring A depends_on B (committed) and then
B depends_on A (rejected), the committed graph does not have zero edges
between A and B: the first declaration's edge from B to A remains, stored
twice by the double append. -/
theorem cycle_scenario_first_edge_remains :
    cycleBuild2.2 = false ∧
    adj cycleBuild2.1.graph "B" = ["A", "A"] ∧
    adj cycleBuild2.1.graph "B" ≠ [] := by decide

/-- C6 amended: the first declaration commits, the second is rejected and
rolled back, the resulting graph keeps exactly the first edge (B to A,
duplicated in the successor list by the double append) and no edge from A to
B, and detect_cycle over the committed graph returns false. -/
theorem cycle_scenario_amended :
    cycleBuild1.2 = true ∧ cycleBuild2.2 = false ∧
    cycleBuild2.1.graph = [("A", []), ("B", ["A", "A"])] ∧
    adj cycleBuild2.1.graph "A" = [] ∧
    detect_cycle cycleBuild2.1.graph = false := by decide

/-- C7: starting from any table state with a flushed stage buffer and a
run_id not yet present (a fresh uuid), Create stages the new row's fields
and saves, inserting exactly one row for the run_id and clearing the stage
buffer; Succeed then updates only the staged columns of that one row,
leaving exactly one row with status SUCCESS, a non-null end_ts and the
creation-time start_ts and params intact; Fail instead leaves exactly one
row with status FAILED and the error message populated; every save clears
the stage buffer. -/
theorem create_then_finish_single_row
    (t : LogTable) (name params uuid now ttl dbNow t1 msg : String)
    (hch : t.changes = [])
    (hfresh : rowsFor t (runIdOf name uuid) = []) :
    (JobLogHandler.create ⟨"", t⟩ name params uuid now ttl dbNow).run_id =
      runIdOf name uuid ∧
    (JobLogHandler.create ⟨"", t⟩ name params uuid now ttl dbNow).log_table.changes = [] ∧
    (rowsFor (JobLogHandler.create ⟨"", t⟩ name params uuid now ttl dbNow).log_table
      (runIdOf name uuid)).length = 1 ∧
    ((rowsFor (JobLogHandler.success
        (JobLogHandler.create ⟨"", t⟩ name params uuid now ttl dbNow) t1 dbNow).log_table
        (runIdOf name uuid)).length = 1 ∧
      (∀ r ∈ rowsFor (JobLogHandler.success
          (JobLogHandler.create ⟨"", t⟩ name params uuid now ttl dbNow) t1 dbNow).log_table
          (runIdOf name uuid),
        r.status = some "SUCCESS" ∧ r.end_ts = some t1 ∧
        r.start_ts = some now ∧ r.params = some params) ∧
      (JobLogHandler.success
        (JobLogHandler.create ⟨"", t⟩ name params uuid now ttl dbNow) t1 dbNow).log_table.changes = []) ∧
    ((rowsFor (JobLogHandler.failed
        (JobLogHandler.create ⟨"", t⟩ name params uuid now ttl dbNow) msg t1 dbNow).log_table
        (runIdOf name uuid)).length = 1 ∧
      (∀ r ∈ rowsFor (JobLogHandler.failed
          (JobLogHandler.create ⟨"", t⟩ name params uuid now ttl dbNow) msg t1 dbNow).log_table
          (runIdOf name uuid),
        r.status = some "FAILED" ∧ r.error_message = some msg ∧ r.end_ts = some t1) ∧
      (JobLogHandler.failed
        (JobLogHandler.create ⟨"", t⟩ name params uuid now ttl dbNow) msg t1 dbNow).log_table.changes = []) := by
  have hf2 : t.rows.filter (fun r => decide (r.run_id = some (runIdOf name uuid))) = [] :=
    hfresh
  have hrneq : ∀ r ∈ t.rows, r.run_id ≠ some (runIdOf name uuid) := by
    intro r hr
    have := List.filter_eq_nil_iff.mp hf2 r hr
    simpa using this
  have hcreate : JobLogHandler.create ⟨"", t⟩ name params uuid now ttl dbNow =
      ⟨runIdOf name uuid,
        ⟨t.rows ++
          [{ run_id := some (runIdOf name uuid), job_name := some name,
             step_name := some name, start_ts := some now, ttl := some ttl,
             last_updated_at := some now, params := some params,
             created_at := some dbNow }],
          []⟩⟩ := by
    simp [JobLogHandler.create, LogTable.set_attr, LogTable.save, rowsFor, hch, hf2,
      stageChange, applyChanges, setCol, blankRow]
  have hsucc : JobLogHandler.success
      ⟨runIdOf name uuid,
        ⟨t.rows ++
          [{ run_id := some (runIdOf name uuid), job_name := some name,
             step_name := some name, start_ts := some now, ttl := some ttl,
             last_updated_at := some now, params := some params,
             created_at := some dbNow }],
          []⟩⟩ t1 dbNow =
      ⟨"",
        ⟨t.rows ++
          [{ run_id := some (runIdOf name uuid), job_name := some name,
             step_name := some name, start_ts := some now, ttl := some ttl,
             last_updated_at := some t1, params := some params,
             created_at := some dbNow, status := some "SUCCESS",
             end_ts := some t1 }],
          []⟩⟩ := by
    simp [JobLogHandler.success, LogTable.set_attr, LogTable.save, rowsFor, hf2,
      stageChange, applyChanges, setCol]
    exact map_id_of_run_id_ne t.rows (runIdOf name uuid) _ hrneq
  have hfail : JobLogHandler.failed
      ⟨runIdOf name uuid,
        ⟨t.rows ++
          [{ run_id := some (runIdOf name uuid), job_name := some name,
             step_name := some name, start_ts := some now, ttl := some ttl,
             last_updated_at := some now, params := some params,
             created_at := some dbNow }],
          []⟩⟩ msg t1 dbNow =
      ⟨"",
        ⟨t.rows ++
          [{ run_id := some (runIdOf name uuid), job_name := some name,
             step_name := some name, start_ts := some now, ttl := some ttl,
             last_updated_at := some t1, params := some params,
             created_at := some dbNow, status := some "FAILED",
             error_message := some msg, end_ts := some t1 }],
          []⟩⟩ := by
    simp [JobLogHandler.failed, LogTable.set_attr, LogTable.save, rowsFor, hf2,
      stageChange, applyChanges, setCol]
    exact map_id_of_run_id_ne t.rows (runIdOf name uuid) _ hrneq
  rw [hcreate, hsucc, hfail]
  refine ⟨rfl, rfl, ?_, ⟨?_, ?_, rfl⟩, ⟨?_, ?_, rfl⟩⟩
  · simp [rowsFor, hf2]
  · simp [rowsFor, hf2]
  · intro r hr
    simp [rowsFor, hf2] at hr
    subst hr
    exact ⟨rfl, rfl, rfl, rfl⟩
  · simp [rowsFor, hf2]
  · intro r hr
    simp [rowsFor, hf2] at hr
    subst hr
    exact ⟨rfl, rfl, rfl⟩

/-- C7 witness: the fresh-table instantiation at concrete field values. -/
theorem create_then_finish_single_row_witness :
    ((⟨[], []⟩ : LogTable).changes = [] ∧
      rowsFor ⟨[], []⟩ (runIdOf "extract" "u1") = []) ∧
    ((JobLogHandler.create ⟨"", ⟨[], []⟩⟩ "extract" "p" "u1" "t0" "t9" "d0").run_id =
      runIdOf "extract" "u1" ∧
    (JobLogHandler.create ⟨"", ⟨[], []⟩⟩ "extract" "p" "u1" "t0" "t9" "d0").log_table.changes = [] ∧
    (rowsFor (JobLogHandler.create ⟨"", ⟨[], []⟩⟩ "extract" "p" "u1" "t0" "t9" "d0").log_table
      (runIdOf "extract" "u1")).length = 1 ∧
    ((rowsFor (JobLogHandler.success
        (JobLogHandler.create ⟨"", ⟨[], []⟩⟩ "extract" "p" "u1" "t0" "t9" "d0") "t1" "d0").log_table
        (runIdOf "extract" "u1")).length = 1 ∧
      (∀ r ∈ rowsFor (JobLogHandler.success
          (JobLogHandler.create ⟨"", ⟨[], []⟩⟩ "extract" "p" "u1" "t0" "t9" "d0") "t1" "d0").log_table
          (runIdOf "extract" "u1"),
        r.status = some "SUCCESS" ∧ r.end_ts = some "t1" ∧
        r.start_ts = some "t0" ∧ r.params = some "p") ∧
      (JobLogHandler.success
        (JobLogHandler.create ⟨"", ⟨[], []⟩⟩ "extract" "p" "u1" "t0" "t9" "d0") "t1" "d0").log_table.changes = []) ∧
    ((rowsFor (JobLogHandler.failed
        (JobLogHandler.create ⟨"", ⟨[], []⟩⟩ "extract" "p" "u1" "t0" "t9" "d0") "boom" "t1" "d0").log_table
        (runIdOf "extract" "u1")).length = 1 ∧
      (∀ r ∈ rowsFor (JobLogHandler.failed
          (JobLogHandler.create ⟨"", ⟨[], []⟩⟩ "extract" "p" "u1" "t0" "t9" "d0") "boom" "t1" "d0").log_table
          (runIdOf "extract" "u1"),
        r.status = some "FAILED" ∧ r.error_message = some "boom" ∧ r.end_ts = some "t1") ∧
      (JobLogHandler.failed
        (JobLogHandler.create ⟨"", ⟨[], []⟩⟩ "extract" "p" "u1" "t0" "t9" "d0") "boom" "t1" "d0").log_table.changes = [])) :=
  ⟨⟨rfl, rfl⟩,
    create_then_finish_single_row ⟨[], []⟩ "extract" "p" "u1" "t0" "t9" "d0" "t1" "boom" rfl rfl⟩

/-- C8: a persistence failure inside JobLogHandler.create escapes as an
exception — create has no try/except — and therefore propagates out of
PipelineCursor.execute into the scheduling loop, while failed, success and
start swallow the same failure and return False as the claim requires. -/
theorem create_propagates_recorder_error :
    JobLogHandlerExc.create true = .error "RecorderError" ∧
    executeDispatch (some "extract") true false true = .error "RecorderError" ∧
    JobLogHandlerExc.failed true = false ∧
    JobLogHandlerExc.success true = false ∧
    JobLogHandlerExc.start true = false :=
  ⟨rfl, rfl, rfl, rfl, rfl⟩

/-- Removing a queue entry at an index holding a different element keeps a
present element present. -/
theorem mem_eraseIdx_of_getD_ne {α : Type} (d : α) :
    ∀ (l : List α) (i : Nat) (a : α), a ∈ l → l.getD i d ≠ a → a ∈ l.eraseIdx i := by
  intro l
  induction l with
  | nil => intro i a ha _; simp at ha
  | cons x xs ih =>
    intro i a ha hne
    cases i with
    | zero =>
      simp only [List.getD_cons_zero] at hne
      simp only [List.eraseIdx_cons_zero]
      rcases List.mem_cons.mp ha with h | h
      · exact absurd h.symm hne
      · exact h
    | succ j =>
      simp only [List.getD_cons_succ] at hne
      simp only [List.eraseIdx_cons_succ]
      rcases List.mem_cons.mp ha with h | h
      · exact List.mem_cons.mpr (Or.inl h)
      · exact List.mem_cons.mpr (Or.inr (ih j a h hne))

/-- The successor loop only appends dispatches to the queue, so every entry
already pending stays pending. -/
theorem advance_q_mono (cfg : SchedCfg) :
    ∀ (ns : List String) (d : DepsL) (q : List (String × Option Unit))
      (x : String × Option Unit), x ∈ q → x ∈ (advance cfg ns d q).2 := by
  intro ns
  induction ns with
  | nil => intro d q x hx; exact hx
  | cons n rest ih =>
    intro d q x hx
    unfold advance
    dsimp only
    split
    · exact ih _ _ x (List.mem_append_left _ hx)
    · exact ih _ _ x hx

/-- A queue entry whose future is None is never removable: examining it
raises, skipping it keeps it pending, so the control loop can never reach
the empty-queue exit and return a completed result list. -/
theorem schedLoop_no_ok (cfg : SchedCfg) (s : String) :
    ∀ (choices : List Nat) (st : SchedState), (s, none) ∈ st.q →
      ∀ r, schedLoop cfg choices st ≠ Except.ok r := by
  intro choices
  induction choices with
  | nil =>
    intro st hmem r
    obtain ⟨q, deps, res⟩ := st
    cases q with
    | nil => simp at hmem
    | cons q0 qr => simp [schedLoop]
  | cons c cs ih =>
    intro st hmem r
    obtain ⟨q, deps, res⟩ := st
    cases q with
    | nil => simp at hmem
    | cons q0 qr =>
      rw [schedLoop]
      cases hsnd : ((q0 :: qr).getD (c % (q0 :: qr).length) ("", none)).2 with
      | none => simp [hsnd]
      | some u =>
        simp only [hsnd]
        apply ih
      -- the none-future entry survives the removal and the appends
        have hne : (q0 :: qr).getD (c % (q0 :: qr).length) ("", none) ≠ (s, none) := by
          intro he
          rw [he] at hsnd
          exact Option.noConfusion hsnd
        exact advance_q_mono cfg _ _ _ _
          (mem_eraseIdx_of_getD_ne ("", none) _ _ _ hmem hne)

/-- C10: a step registered in the graph whose configuration declares no
action name and whose in-degree reads zero is dispatched by the seed loop
with a None future; thereafter no oracle schedule can complete the run: the
loop either examines the None entry (the .done() call on None, the
AttributeError branch) or exhausts with that entry still pending, so the
scheduler never returns a completed result — it is total only when every
step declares an action. -/
theorem scheduler_aborts_without_action
    (cfg : SchedCfg) (deps0 : DepsL) (s : String)
    (hs : s ∈ keys cfg.graph) (hact : actOf cfg.act s = false)
    (hdeg : depsGet deps0 s = 0) :
    ∀ choices : List Nat, ∃ msg, schedRun cfg deps0 choices = .error msg := by
  have hseed : (s, none) ∈ seedQ cfg deps0 := by
    unfold seedQ
    refine List.mem_map.mpr ⟨s, List.mem_filter.mpr ⟨hs, by simp [hdeg]⟩, ?_⟩
    simp [dispatch, hact]
  intro choices
  cases he : schedRun cfg deps0 choices with
  | ok r =>
    rw [schedRun] at he
    exact absurd he (schedLoop_no_ok cfg s choices ⟨seedQ cfg deps0, deps0, []⟩ hseed r)
  | error m => exact ⟨m, rfl⟩

/-- C10 witness: a one-step graph whose step declares no action, scheduled
with the oracle that examines the seeded entry first. -/
theorem scheduler_aborts_without_action_witness :
    ("A" ∈ keys ([("A", [])] : Graph) ∧ actOf [("A", false)] "A" = false ∧
      depsGet [] "A" = 0) ∧
    (∃ msg, schedRun ⟨[("A", [])], [("A", false)]⟩ [] [0] = .error msg) :=
  ⟨⟨by decide, rfl, rfl⟩,
    scheduler_aborts_without_action ⟨[("A", [])], [("A", false)]⟩ [] "A"
      (by decide) rfl rfl [0]⟩

/-- C9 counterexample: at a concrete partition value, Pipeline.run returns
None rather than a JobReport paired with an error, and the report it built
is never finalized: end_ts stays unset and exit_code stays at its initial
-1 even though the scheduler completed normally. -/
theorem run_returns_none_concrete :
    (Pipeline.run [("A", [])] [] [("A", true)] "2024-01-31" "t0" [0]).retVal = none ∧
    (Pipeline.run [("A", [])] [] [("A", true)] "2024-01-31" "t0" [0]).report.end_ts = none ∧
    (Pipeline.run [("A", [])] [] [("A", true)] "2024-01-31" "t0" [0]).report.exit_code = -1 ∧
    (Pipeline.run [("A", [])] [] [("A", true)] "2024-01-31" "t0" [0]).schedResult =
      .ok ["A"] :=
  ⟨rfl, rfl, rfl, rfl⟩

/-- C9 amended: for every partition value, Pipeline.run creates the
JobReport at run start (start_ts is the run-start clock, exit_code the
initial -1, end_ts unset) and drives the scheduler, but returns None and
never finalizes the report. -/
theorem run_amended (graph : Graph) (deps : DepsL) (act : List (String × Bool))
    (pv now : String) (choices : List Nat) :
    (Pipeline.run graph deps act pv now choices).retVal = none ∧
    (Pipeline.run graph deps act pv now choices).report.start_ts = now ∧
    (Pipeline.run graph deps act pv now choices).report.end_ts = none ∧
    (Pipeline.run graph deps act pv now choices).report.exit_code = -1 ∧
    (Pipeline.run graph deps act pv now choices).schedResult =
      schedRun ⟨graph, act⟩ deps choices :=
  ⟨rfl, rfl, rfl, rfl, rfl⟩

end Ingest
